import Mathlib

/-!
Shallow embedding of the alignment and temporal-slicing engine of the
tune pipeline (src/tooling/tune_pipeline): `align.py`, `nuggets_resolve.py`,
`nuggets_extract.py`, `midi_to_ns.py`, `mxl_parse.py`, `hands.py`.
Python floats are modelled as exact rationals; Python strings stay strings;
Python `dict.get` lookups are modelled by association lists / Option.
-/

namespace Replay

/-! ## Stable insertion sort (model of Python `sorted` / `list.sort`) -/

/-- Insert `x` into `l` before the first element `y` with `le x y`.
Together with `sortLe` this models Python's stable ascending sort. -/
def insertLe {α : Type} (le : α → α → Bool) (x : α) : List α → List α
  | [] => [x]
  | y :: ys => if le x y then x :: y :: ys else y :: insertLe le x ys

/-- Stable insertion sort by the boolean relation `le`. -/
def sortLe {α : Type} (le : α → α → Bool) : List α → List α
  | [] => []
  | x :: xs => insertLe le x (sortLe le xs)

/-! ## Maximum of a nonempty list (model of Python `max`) -/

/-- Python `max(list)`; the `[]` case is unreachable at every use site. -/
def listMax : List ℚ → ℚ
  | [] => 0
  | x :: xs => xs.foldl max x

/-! ## Data model -/

/-- A performance note event (`midi_to_ns.py` note dict). -/
structure NoteEvent where
  pitch : Int
  startTime : ℚ
  endTime : ℚ
  velocity : ℚ
  deriving DecidableEq, Repr

/-- Default note used with `List.getD`; never exposed at in-bounds indices. -/
def defNote : NoteEvent := ⟨0, 0, 0, 0⟩

/-- A symbolic score event (`mxl_parse.ScoreEvent`). -/
structure ScoreEvent where
  pitch : Int
  measure : Int
  beat : ℚ
  staff : Int
  offset_quarters : ℚ
  onset_seconds : ℚ
  deriving DecidableEq, Repr

/-- The pipeline settings fields consumed by `align_notes`, after the
`dict.get` defaulting performed at the top of the function. -/
structure Settings where
  mode : String
  crossStaff : String
  staffMap : List (Int × String)
  fallback : Option String
  deriving DecidableEq, Repr

/-- One entry of the hands-map `notes` array. -/
structure NoteOut where
  index : Nat
  hand : String
  confidence : ℚ
  deriving DecidableEq, Repr

/-- The parts of `align_notes`' output the claims are about. -/
structure AlignOut where
  mode : String
  matchedNotes : Nat
  totalNotes : Nat
  matchRate : ℚ
  notes : List NoteOut
  scoreMatches : List (Option ScoreEvent)
  deriving DecidableEq, Repr

/-! ## align.py -/

/-- `_local_ioi`: smaller positive gap to the neighbouring performance-note
start times, falling back to 0.5. -/
def local_ioi (starts : List ℚ) (index : Nat) : ℚ :=
  if starts.length < 2 then 1/2
  else
    let prevGap : Option ℚ :=
      if 0 < index then some (starts.getD index 0 - starts.getD (index - 1) 0) else none
    let nextGap : Option ℚ :=
      if index < starts.length - 1 then some (starts.getD (index + 1) 0 - starts.getD index 0)
      else none
    let gaps := ([prevGap, nextGap].filterMap id).filter (fun gap => decide (0 < gap))
    match gaps with
    | [] => 1/2
    | g :: gs => gs.foldl min g

/-- Boolean `≤` on rationals, for the sort in `_pitch_split` / `align_notes`. -/
def ratLeB (a b : ℚ) : Bool := decide (a ≤ b)

/-- Boolean `≤` on integers (pitch sort in `_pitch_split`). -/
def intLeB (a b : Int) : Bool := decide (a ≤ b)

/-- `_pitch_split`: hand by comparison with `sorted(pitches)[len(notes) // 2]`,
confidence 0.2 everywhere. -/
def pitch_split (notes : List NoteEvent) : List (String × ℚ) :=
  match notes with
  | [] => []
  | _ :: _ =>
    let median_pitch := (sortLe intLeB (notes.map (·.pitch))).getD (notes.length / 2) 0
    notes.map (fun note => (if median_pitch ≤ note.pitch then "RH" else "LH", 1/5))

/-- `_map_staff_to_hand`: `staff_map.get(str(staff), "Unknown")`. -/
def map_staff_to_hand (staff : Int) (staff_map : List (Int × String)) : String :=
  ((staff_map.find? (fun p => p.1 = staff)).map Prod.snd).getD "Unknown"

/-- The `valid_deltas` sample of `align_notes`: `performanceStart − scoreOnsetSeconds`
over pitch matches of the first `min(N,20)` notes against the first
`min(M,100)` score events. -/
def shiftDeltas (notes : List NoteEvent) (score_events : List ScoreEvent) : List ℚ :=
  (notes.take (min notes.length 20)).flatMap (fun n =>
    (score_events.take (min score_events.length 100)).filterMap (fun e =>
      if n.pitch = e.pitch then some (n.startTime - e.onset_seconds) else none))

/-- `global_shift` estimation of `align_notes`: sort the deltas, take the
element at index `len // 2` as median, average the deltas strictly within
2.0s of it. -/
def globalShift (notes : List NoteEvent) (score_events : List ScoreEvent) : ℚ :=
  let valid_deltas := sortLe ratLeB (shiftDeltas notes score_events)
  match valid_deltas with
  | [] => 0
  | _ :: _ =>
    let median_delta := valid_deltas.getD (valid_deltas.length / 2) 0
    let cluster := valid_deltas.filter (fun d => decide (|d - median_delta| < 2))
    match cluster with
    | [] => 0
    | _ :: _ => cluster.sum / (cluster.length : ℚ)

/-- The update guard of the best-match scan:
`best_delta is None or delta < best_delta`. -/
def betterThan (delta : ℚ) : Option (ScoreEvent × ℚ) → Bool
  | none => true
  | some p => decide (delta < p.2)

/-- The best-match loop of `align_notes` over candidate events, carrying the
current `(best, best_delta)`. -/
def bestMatchGo (shift tolerance : ℚ) (note : NoteEvent) :
    Option (ScoreEvent × ℚ) → List ScoreEvent → Option (ScoreEvent × ℚ)
  | best, [] => best
  | best, ev :: rest =>
    let delta := |ev.onset_seconds + shift - note.startTime|
    bestMatchGo shift tolerance note
      (if decide (delta ≤ tolerance) && betterThan delta best then some (ev, delta) else best)
      rest

/-- The best-match scan of `align_notes`: among same-pitch score events, the
first one minimising `|onset + shift − startTime|` subject to the tolerance. -/
def bestMatch (score_events : List ScoreEvent) (shift tolerance : ℚ) (note : NoteEvent) :
    Option (ScoreEvent × ℚ) :=
  bestMatchGo shift tolerance note none
    (score_events.filter (fun ev => ev.pitch = note.pitch))

/-- Per-note assignment: hand, confidence and the matched score event. -/
structure NoteAssign where
  hand : String
  conf : ℚ
  matched : Option ScoreEvent
  deriving DecidableEq, Repr

/-- Confidence tiering of `align_notes` from the matched delta. -/
def confTier (delta : ℚ) : ℚ :=
  if delta ≤ 3/100 then 1 else if delta ≤ 8/100 then 7/10 else 2/5

/-- The body of the per-note loop of `align_notes` (non-pitchSplit modes). -/
def assignNote (starts : List ℚ) (score_events : List ScoreEvent) (shift : ℚ)
    (mode cross_staff : String) (staff_map : List (Int × String))
    (idx : Nat) (note : NoteEvent) : NoteAssign :=
  let tolerance := max (8/100) ((1/4) * local_ioi starts idx)
  match bestMatch score_events shift tolerance note with
  | none => ⟨"Unknown", 0, none⟩
  | some (best, best_delta) =>
    let confidence := confTier best_delta
    if mode = "byStaff" then
      let hand := map_staff_to_hand best.staff staff_map
      if hand = "Unknown" ∧ cross_staff = "allow" then
        ⟨if 60 ≤ note.pitch then "RH" else "LH", min confidence (2/5), some best⟩
      else ⟨hand, confidence, some best⟩
    else ⟨"Unknown", confidence, some best⟩

/-- The per-note loop of `align_notes` over all notes. -/
def alignAssigns (notes : List NoteEvent) (score_events : List ScoreEvent)
    (st : Settings) : List NoteAssign :=
  let shift := globalShift notes score_events
  let starts := notes.map (·.startTime)
  notes.enum.map (fun p => assignNote starts score_events shift st.mode st.crossStaff st.staffMap p.1 p.2)

/-- `quality["matchedNotes"]`: notes that matched with confidence ≥ 0.4. -/
def alignMatchedCount (notes : List NoteEvent) (score_events : List ScoreEvent)
    (st : Settings) : Nat :=
  ((alignAssigns notes score_events st).filter
    (fun a => a.matched.isSome && decide ((2:ℚ)/5 ≤ a.conf))).length

/-- `quality["matchRate"] = matchedNotes / max(1, totalNotes)`. -/
def alignMatchRate (notes : List NoteEvent) (score_events : List ScoreEvent)
    (st : Settings) : ℚ :=
  (alignMatchedCount notes score_events st : ℚ) / (max 1 notes.length : ℚ)

/-- Index-decorated hands-map entries built from (hand, confidence) pairs,
starting at index `i` (model of Python `enumerate`). -/
def enumEntriesFrom (i : Nat) : List (String × ℚ) → List NoteOut
  | [] => []
  | p :: ps => ⟨i, p.1, p.2⟩ :: enumEntriesFrom (i + 1) ps

/-- Index-decorated hands-map entries built from (hand, confidence) pairs. -/
def enumEntries (l : List (String × ℚ)) : List NoteOut :=
  enumEntriesFrom 0 l

/-- `align_notes`, returning the observable parts of the hands map together
with the per-note score matches. -/
def align_notes (notes : List NoteEvent) (score_events : List ScoreEvent)
    (st : Settings) : AlignOut :=
  if st.mode = "pitchSplit" then
    { mode := "pitchSplit", matchedNotes := 0, totalNotes := notes.length, matchRate := 0,
      notes := enumEntries (pitch_split notes),
      scoreMatches := List.replicate notes.length none }
  else
    let assigns := alignAssigns notes score_events st
    let matched := alignMatchedCount notes score_events st
    let rate := alignMatchRate notes score_events st
    if st.mode = "byStaff" ∧ rate < 7/10 ∧ st.fallback = some "pitchSplit" then
      { mode := "pitchSplit", matchedNotes := matched, totalNotes := notes.length,
        matchRate := rate, notes := enumEntries (pitch_split notes),
        scoreMatches := assigns.map (·.matched) }
    else
      { mode := st.mode, matchedNotes := matched, totalNotes := notes.length,
        matchRate := rate,
        notes := enumEntries (assigns.map (fun a => (a.hand, a.conf))),
        scoreMatches := assigns.map (·.matched) }

/-! ## nuggets_resolve.py -/

/-- `EPS = 1e-6`. -/
def EPS : ℚ := 1/1000000

/-- `NuggetRange`. -/
structure NuggetRange where
  note_start_index : Nat
  note_end_index : Nat
  start_time : ℚ
  end_time : ℚ
  deriving DecidableEq, Repr

/-- One `(start, end, tempo)` triple of `_tempo_boundaries`. -/
structure Boundary where
  start : ℚ
  stop : Option ℚ
  tempo : ℚ
  deriving DecidableEq, Repr

/-- A measure of the music21 part, as consumed by `_measure_offset`:
its number, its global quarter offset, and the beat duration of its own
time signature when it has one. -/
structure MeasureInfo where
  number : Int
  offset : ℚ
  timeSigBeat : Option ℚ
  deriving DecidableEq, Repr

/-- The slice of the music21 `Part` that `_measure_offset` reads: the measure
list and the beat duration of the first time signature found by recursion
(the fallback when a measure has none). -/
structure PartModel where
  measures : List MeasureInfo
  firstTimeSigBeat : Option ℚ
  deriving DecidableEq, Repr

/-- A nugget location after `_parse_location`. -/
structure Location where
  startMeasure : Int
  startBeat : ℚ
  endMeasure : Int
  endBeat : ℚ
  deriving DecidableEq, Repr

/-- The loop of `offset_to_seconds` over tempo boundaries. -/
def offsetToSecondsGo (remaining : ℚ) : List Boundary → ℚ
  | [] => 0
  | b :: rest =>
    if remaining ≤ 0 then 0
    else
      let segment_end := b.stop.getD (b.start + remaining)
      let segment_length := min remaining (segment_end - b.start)
      segment_length * (60 / b.tempo) + offsetToSecondsGo (remaining - segment_length) rest

/-- `offset_to_seconds` of `nuggets_resolve.py`. -/
def offset_to_seconds (offset : ℚ) (boundaries : List Boundary) : ℚ :=
  offsetToSecondsGo offset boundaries

/-- `_measure_offset`: fails when the measure number is absent, otherwise
`measure.offset + (beat − 1) * beatLength` with the time-signature fallback
chain `measure.timeSignature or part-recursion-first or 1.0`. -/
def measure_offset (part : PartModel) (measure_number : Int) (beat : ℚ) :
    Except String ℚ :=
  match part.measures.find? (fun m => m.number = measure_number) with
  | none => .error "Measure not found"
  | some m =>
    let beat_length := (m.timeSigBeat.orElse (fun _ => part.firstTimeSigBeat)).getD 1
    .ok (m.offset + (beat - 1) * beat_length)

/-- The initially selected indices of `_select_notes`: all indices whose
note `startTime` lies in the half-open window `[start, end)`. -/
def windowIndices (notes : List NoteEvent) (start stop : ℚ) : List Nat :=
  (List.range notes.length).filter
    (fun idx => decide (start ≤ (notes.getD idx defNote).startTime ∧
      (notes.getD idx defNote).startTime < stop))

/-- The left expansion loop of `_select_notes`:
`while start_idx > 0 and |notes[start_idx-1].startTime - start_time| <= EPS`. -/
def expandLeft (notes : List NoteEvent) (start_time : ℚ) : Nat → Nat
  | 0 => 0
  | idx + 1 =>
    if |(notes.getD idx defNote).startTime - start_time| ≤ EPS then
      expandLeft notes start_time idx
    else idx + 1

/-- The right expansion loop of `_select_notes`, with the list length as fuel:
`while end_idx + 1 < len(notes) and |notes[end_idx+1].startTime - end_onset| <= EPS`. -/
def expandRightA (notes : List NoteEvent) (end_onset : ℚ) : Nat → Nat → Nat
  | 0, idx => idx
  | fuel + 1, idx =>
    if idx + 1 < notes.length ∧
        |(notes.getD (idx + 1) defNote).startTime - end_onset| ≤ EPS then
      expandRightA notes end_onset fuel (idx + 1)
    else idx

/-- The right expansion loop of `_select_notes`. -/
def expandRight (notes : List NoteEvent) (end_onset : ℚ) (idx : Nat) : Nat :=
  expandRightA notes end_onset notes.length idx

/-- `_select_notes`: time-window selection, chord-onset expansion at both
boundaries, and the end time as the max `endTime` over the final onset group. -/
def select_notes (notes : List NoteEvent) (start stop : ℚ) : Option NuggetRange :=
  match h : windowIndices notes start stop with
  | [] => none
  | i0 :: rest =>
    let end_idx := (i0 :: rest).getLast (by simp)
    let start_time := (notes.getD i0 defNote).startTime
    let end_onset := (notes.getD end_idx defNote).startTime
    let start_idx := expandLeft notes start_time i0
    let end_idx' := expandRight notes end_onset end_idx
    let end_time := listMax ((notes.filter
      (fun note => decide (|note.startTime - end_onset| ≤ EPS))).map (·.endTime))
    some ⟨start_idx, end_idx', (notes.getD start_idx defNote).startTime, end_time⟩

/-- The per-track loop of `resolve_nuggets`: the `full` track raises on an
empty selection, other tracks are skipped. -/
def resolveTracks (start_time end_time : ℚ) :
    List (String × List NoteEvent) → Except String (List (String × NuggetRange))
  | [] => .ok []
  | (track_name, notes) :: rest =>
    match select_notes notes start_time end_time with
    | none =>
      if track_name = "full" then .error "Nugget resolved to zero notes"
      else resolveTracks start_time end_time rest
    | some r => do
      let tail ← resolveTracks start_time end_time rest
      .ok ((track_name, r) :: tail)

/-- The body of `resolve_nuggets` for one nugget: measure/beat → quarter
offset → seconds, then per-track note selection. -/
def resolveNugget (part : PartModel) (boundaries : List Boundary) (loc : Location)
    (note_sequences : List (String × List NoteEvent)) :
    Except String (List (String × NuggetRange)) := do
  let start_offset ← measure_offset part loc.startMeasure loc.startBeat
  let end_offset ← measure_offset part loc.endMeasure loc.endBeat
  let start_time := offset_to_seconds start_offset boundaries
  let end_time := offset_to_seconds end_offset boundaries
  resolveTracks start_time end_time note_sequences

/-! ## midi_to_ns.py -/

/-- The sort key ordering of `midi_to_note_sequence`:
`(startTime, pitch, endTime)` lexicographically. -/
def noteLeB (a b : NoteEvent) : Bool :=
  decide (a.startTime < b.startTime) ||
    (decide (a.startTime = b.startTime) &&
      (decide (a.pitch < b.pitch) ||
        (decide (a.pitch = b.pitch) && decide (a.endTime ≤ b.endTime))))

/-- The notes list of `midi_to_note_sequence`: all instruments' notes
flattened, then sorted by `(startTime, pitch, endTime)`. -/
def midi_to_note_sequence (instruments : List (List NoteEvent)) : List NoteEvent :=
  sortLe noteLeB instruments.flatten

/-- The loop of `midi_tempo_map` converting absolute change times to
cumulative quarter offsets using each segment's own bpm. -/
def midiTempoGo (cumulative_quarters prev_time prev_bpm : ℚ) :
    List (ℚ × ℚ) → List (ℚ × ℚ)
  | [] => []
  | (time, bpm) :: rest =>
    let seconds_per_quarter := 60 / prev_bpm
    let cum := cumulative_quarters + (time - prev_time) / seconds_per_quarter
    (cum, bpm) :: midiTempoGo cum time bpm rest

/-- `midi_tempo_map` on a `(time, bpm)` tempo-change table. -/
def midi_tempo_map : List (ℚ × ℚ) → List (ℚ × ℚ)
  | [] => []
  | (t0, b0) :: rest => (0, b0) :: midiTempoGo 0 t0 b0 rest

/-! ## mxl_parse.py -/

/-- `DEFAULT_BPM`. -/
def DEFAULT_BPM : ℚ := 120

/-- Boolean `≤` on the first component, the key of the sort inside
`_seconds_from_offset`. -/
def fstLeB (a b : ℚ × ℚ) : Bool := decide (a.1 ≤ b.1)

/-- The segment walk of `_seconds_from_offset` over the sorted tail. -/
def secondsWalk (offset_quarters : ℚ) (prev_offset prev_bpm : ℚ) :
    List (ℚ × ℚ) → ℚ
  | [] => (offset_quarters - prev_offset) * (60 / prev_bpm)
  | (change_offset, bpm) :: rest =>
    if offset_quarters ≤ change_offset then
      (offset_quarters - prev_offset) * (60 / prev_bpm)
    else
      (change_offset - prev_offset) * (60 / prev_bpm) +
        secondsWalk offset_quarters change_offset bpm rest

/-- `_seconds_from_offset`: piecewise-constant tempo integration, starting
from offset 0 at the first (sorted) entry's bpm, 120 bpm when the map is empty. -/
def seconds_from_offset (offset_quarters : ℚ) (tempo_map : List (ℚ × ℚ)) : ℚ :=
  match sortLe fstLeB tempo_map with
  | [] => offset_quarters * (60 / DEFAULT_BPM)
  | entry :: rest => secondsWalk offset_quarters 0 entry.2 rest

/-! ## hands.py -/

/-- The zip loop of `split_note_sequence`, returning (rh, lh) note lists. -/
def splitGo : List (NoteEvent × String) → List NoteEvent × List NoteEvent
  | [] => ([], [])
  | (note, hand) :: rest =>
    let p := splitGo rest
    if hand = "RH" then (note :: p.1, p.2)
    else if hand = "LH" then (p.1, note :: p.2)
    else p

/-- `split_note_sequence` restricted to its note lists: filter the zipped
(note, hand) pairs into RH and LH subsequences. -/
def split_note_sequence (notes : List NoteEvent) (hands : List String) :
    List NoteEvent × List NoteEvent :=
  splitGo (notes.zip hands)

/-! ## nuggets_extract.py (NoteSequenceSlicer) -/

/-- Shift a retained note by `−startSeconds`. -/
def shiftNote (start_seconds : ℚ) (note : NoteEvent) : NoteEvent :=
  { note with startTime := note.startTime - start_seconds,
              endTime := note.endTime - start_seconds }

/-- The note slicing of `extract_nuggets`: keep notes with
`start_seconds <= startTime < end_seconds`, shift both times. -/
def sliceNotes (notes : List NoteEvent) (start_seconds end_seconds : ℚ) :
    List NoteEvent :=
  (notes.filter (fun note =>
    decide (start_seconds ≤ note.startTime ∧ note.startTime < end_seconds))).map
    (shiftNote start_seconds)

/-- The `totalTime` of an extracted slice: `end − start`, raised to the
maximum retained `endTime` when that exceeds it. -/
def sliceTotalTime (notes : List NoteEvent) (start_seconds end_seconds : ℚ) : ℚ :=
  let sliced := sliceNotes notes start_seconds end_seconds
  let total := end_seconds - start_seconds
  match sliced with
  | [] => total
  | _ :: _ =>
    let max_note_end := listMax (sliced.map (·.endTime))
    if total < max_note_end then max_note_end else total

/-! ## Spec-side definitions (refinement comparisons)

These follow the spec's words, not the source, and exist only to be compared
with the source-derived definitions above. -/

/-- Lexicographic order on (measure, beat), as in spec §4.4 step 3. -/
def measureBeatLe (a b : Int × ℚ) : Prop :=
  a.1 < b.1 ∨ (a.1 = b.1 ∧ a.2 ≤ b.2)

instance (a b : Int × ℚ) : Decidable (measureBeatLe a b) := by
  unfold measureBeatLe
  infer_instance

/-- Modelled from the spec (claim C1): full-track nugget membership decided
by the matched ScoreEvent lying lexicographically within
`[startMeasure,startBeat]..[endMeasure,endBeat]`. -/
def spec_symbolic_select (score_matches : List (Option ScoreEvent)) (loc : Location) :
    List Nat :=
  (List.range score_matches.length).filter (fun idx =>
    match score_matches.getD idx none with
    | none => false
    | some ev =>
      decide (measureBeatLe (loc.startMeasure, loc.startBeat) (ev.measure, ev.beat) ∧
        measureBeatLe (ev.measure, ev.beat) (loc.endMeasure, loc.endBeat)))

/-- Modelled from the spec (claim C2): pitch split with the LOWER median for
even counts, i.e. index `(n − 1) / 2` of the pitch-sorted list. -/
def spec_pitch_split_lower (notes : List NoteEvent) : List (String × ℚ) :=
  match notes with
  | [] => []
  | _ :: _ =>
    let median_pitch :=
      (sortLe intLeB (notes.map (·.pitch))).getD ((notes.length - 1) / 2) 0
    notes.map (fun note => (if median_pitch ≤ note.pitch then "RH" else "LH", 1/5))

/-- Mean of a rational list (0 on the empty list). -/
def listMean (l : List ℚ) : ℚ := l.sum / (l.length : ℚ)

/-- The median delta read by the global-shift estimator: element `len // 2`
of the sorted delta list. -/
def medianDelta (notes : List NoteEvent) (score_events : List ScoreEvent) : ℚ :=
  let ds := sortLe ratLeB (shiftDeltas notes score_events)
  ds.getD (ds.length / 2) 0

/-- Modelled from the spec (claim C5): global shift as the mean of all deltas
within ±2.0s INCLUSIVE of the median delta ("within ±2.0s"). -/
def spec_global_shift_incl (notes : List NoteEvent) (score_events : List ScoreEvent) : ℚ :=
  let ds := shiftDeltas notes score_events
  match ds with
  | [] => 0
  | _ :: _ =>
    listMean (ds.filter (fun d => decide (|d - medianDelta notes score_events| ≤ 2)))

/-- Translate a score event's onset by `shift` (used to state that the global
shift is applied to every score onset before comparison). -/
def shiftEvent (shift : ℚ) (ev : ScoreEvent) : ScoreEvent :=
  {ev with onset_seconds := ev.onset_seconds + shift}

/-- `shiftEvent` on the event of a `(event, delta)` best-match pair. -/
def shiftEventPair (shift : ℚ) (p : ScoreEvent × ℚ) : ScoreEvent × ℚ :=
  (shiftEvent shift p.1, p.2)

/-- Strictly ascending `(offset, bpm)` chain above a lower bound — the
well-formedness invariant of a tempo schedule (spec §3, TempoSegment). -/
def StrictAsc : ℚ → List (ℚ × ℚ) → Prop
  | _, [] => True
  | a, p :: rest => a < p.1 ∧ StrictAsc p.1 rest

instance instDecidableStrictAsc : (a : ℚ) → (l : List (ℚ × ℚ)) → Decidable (StrictAsc a l)
  | _, [] => .isTrue trivial
  | a, p :: rest =>
    have : Decidable (StrictAsc p.1 rest) := instDecidableStrictAsc p.1 rest
    decidable_of_iff (a < p.1 ∧ StrictAsc p.1 rest) Iff.rfl

/-- The absolute change times of a tempo-segment tail, accumulated with each
segment's own bpm (the inverse direction of `midi_tempo_map`'s loop). -/
def timesOf (cumQ curT curB : ℚ) : List (ℚ × ℚ) → List (ℚ × ℚ)
  | [] => []
  | (q, b) :: rest =>
    let t := curT + (q - cumQ) * (60 / curB)
    (t, b) :: timesOf q t b rest

/-- The absolute-time tempo table describing the same bpm/offset pairs as a
symbolic tempo schedule: each entry's change time is the schedule's own
`secondsAt` of its quarter offset. -/
def tempoTable (segs : List (ℚ × ℚ)) : List (ℚ × ℚ) :=
  segs.map (fun p => (seconds_from_offset p.1 segs, p.2))

/-! ## Infrastructure lemmas -/

theorem insertLe_perm {α : Type} (le : α → α → Bool) (x : α) (l : List α) :
    List.Perm (insertLe le x l) (x :: l) := by
  induction l with
  | nil => simp [insertLe]
  | cons y ys ih =>
    simp only [insertLe]
    by_cases h : le x y
    · simp [h]
    · simp only [h, if_neg]
      exact (List.Perm.cons y ih).trans (List.Perm.swap x y ys)

theorem sortLe_perm {α : Type} (le : α → α → Bool) (l : List α) :
    List.Perm (sortLe le l) l := by
  induction l with
  | nil => simp [sortLe]
  | cons x xs ih =>
    exact (insertLe_perm le x (sortLe le xs)).trans (List.Perm.cons x ih)

theorem insertLe_pairwise {α : Type} (le : α → α → Bool)
    (htot : ∀ a b, le a b = true ∨ le b a = true)
    (htrans : ∀ a b c, le a b = true → le b c = true → le a c = true)
    (x : α) (l : List α) (hl : l.Pairwise (fun a b => le a b = true)) :
    (insertLe le x l).Pairwise (fun a b => le a b = true) := by
  induction l with
  | nil => simp [insertLe]
  | cons y ys ih =>
    simp only [insertLe]
    rcases List.pairwise_cons.mp hl with ⟨hy, hys⟩
    by_cases h : le x y = true
    · rw [if_pos h]
      refine List.pairwise_cons.mpr ⟨?_, hl⟩
      intro b hb
      rcases List.mem_cons.mp hb with rfl | hb
      · exact h
      · exact htrans x y b h (hy b hb)
    · rw [if_neg h]
      refine List.pairwise_cons.mpr ⟨?_, ih hys⟩
      intro b hb
      rcases List.mem_cons.mp ((insertLe_perm le x ys).mem_iff.mp hb) with rfl | hb'
      · rcases htot b y with h' | h'
        · exact absurd h' h
        · exact h'
      · exact hy b hb'

theorem sortLe_pairwise {α : Type} (le : α → α → Bool)
    (htot : ∀ a b, le a b = true ∨ le b a = true)
    (htrans : ∀ a b c, le a b = true → le b c = true → le a c = true)
    (l : List α) :
    (sortLe le l).Pairwise (fun a b => le a b = true) := by
  induction l with
  | nil => simp [sortLe]
  | cons x xs ih => exact insertLe_pairwise le htot htrans x (sortLe le xs) ih

theorem insertLe_of_le_head {α : Type} (le : α → α → Bool) (x y : α) (ys : List α)
    (h : le x y = true) : insertLe le x (y :: ys) = x :: y :: ys := by
  simp [insertLe, h]

theorem sortLe_eq_self {α : Type} (le : α → α → Bool) (l : List α)
    (hl : l.Pairwise (fun a b => le a b = true)) : sortLe le l = l := by
  induction l with
  | nil => rfl
  | cons x xs ih =>
    rcases List.pairwise_cons.mp hl with ⟨hx, hxs⟩
    simp only [sortLe, ih hxs]
    cases xs with
    | nil => rfl
    | cons y ys => exact insertLe_of_le_head le x y ys (hx y (by simp))

theorem foldl_max_le {l : List ℚ} {a b : ℚ} (h : a ≤ b) : a ≤ l.foldl max b := by
  induction l generalizing b with
  | nil => exact h
  | cons c cs ih => exact ih (le_trans h (le_max_left b c))

theorem mem_le_foldl_max {l : List ℚ} {x : ℚ} (h : x ∈ l) (a : ℚ) :
    x ≤ l.foldl max a := by
  induction l generalizing a with
  | nil => cases h
  | cons c cs ih =>
    simp only [List.foldl_cons]
    rcases List.mem_cons.mp h with rfl | h'
    · exact foldl_max_le (le_max_right a x)
    · exact ih h' (max a c)

theorem foldl_max_cases (l : List ℚ) (a : ℚ) :
    l.foldl max a = a ∨ l.foldl max a ∈ l := by
  induction l generalizing a with
  | nil => exact Or.inl rfl
  | cons c cs ih =>
    simp only [List.foldl_cons]
    rcases ih (max a c) with h | h
    · rcases max_choice a c with h' | h'
      · exact Or.inl (h.trans h')
      · refine Or.inr ?_
        rw [h, h']
        exact List.mem_cons_self c cs
    · exact Or.inr (List.mem_cons_of_mem c h)

theorem listMax_le_of_mem {l : List ℚ} {x : ℚ} (h : x ∈ l) : x ≤ listMax l := by
  cases l with
  | nil => cases h
  | cons y ys =>
    simp only [listMax]
    rcases List.mem_cons.mp h with rfl | h'
    · exact foldl_max_le le_rfl
    · exact mem_le_foldl_max h' y

theorem listMax_mem {l : List ℚ} (h : l ≠ []) : listMax l ∈ l := by
  cases l with
  | nil => exact absurd rfl h
  | cons y ys =>
    simp only [listMax]
    rcases foldl_max_cases ys y with h' | h'
    · rw [h']
      exact List.mem_cons_self y ys
    · exact List.mem_cons_of_mem y h'

theorem intLeB_total (a b : Int) : intLeB a b = true ∨ intLeB b a = true := by
  simp only [intLeB, decide_eq_true_eq]
  exact le_total a b

theorem intLeB_trans (a b c : Int) (h1 : intLeB a b = true) (h2 : intLeB b c = true) :
    intLeB a c = true := by
  simp only [intLeB, decide_eq_true_eq] at h1 h2 ⊢
  exact le_trans h1 h2

theorem sortLe_int_sorted (l : List Int) :
    List.Sorted (· ≤ ·) (sortLe intLeB l) :=
  (sortLe_pairwise intLeB intLeB_total intLeB_trans l).imp
    (fun h => by simpa [intLeB] using h)

theorem enumEntriesFrom_mem {l : List (String × ℚ)} {e : NoteOut} {i : Nat}
    (h : e ∈ enumEntriesFrom i l) : (e.hand, e.confidence) ∈ l := by
  induction l generalizing i with
  | nil => cases h
  | cons p ps ih =>
    rcases List.mem_cons.mp h with rfl | h'
    · exact List.mem_cons_self _ _
    · exact List.mem_cons_of_mem _ (ih h')

theorem pitch_split_conf {notes : List NoteEvent} {p : String × ℚ}
    (h : p ∈ pitch_split notes) : p.2 = 1/5 := by
  cases notes with
  | nil => cases h
  | cons n ns =>
    simp only [pitch_split, List.mem_map] at h
    rcases h with ⟨note, _, rfl⟩
    rfl

/-! ## Claim theorems -/

/-- C2 counterexample: on the two-note input with pitches `[60, 62]`,
`_pitch_split` uses the UPPER median 62 (`sorted[2 // 2]`), assigning
`[LH, RH]`, while the claim's lower median 60 would assign `[RH, RH]`. -/
theorem pitch_split_counterexample :
    pitch_split [⟨60, 0, 1, 1⟩, ⟨62, 1, 2, 1⟩] = [("LH", 1/5), ("RH", 1/5)] ∧
    spec_pitch_split_lower [⟨60, 0, 1, 1⟩, ⟨62, 1, 2, 1⟩] = [("RH", 1/5), ("RH", 1/5)] ∧
    pitch_split [⟨60, 0, 1, 1⟩, ⟨62, 1, 2, 1⟩] ≠
      spec_pitch_split_lower [⟨60, 0, 1, 1⟩, ⟨62, 1, 2, 1⟩] := by
  refine ⟨by with_unfolding_all decide, by with_unfolding_all decide,
    by with_unfolding_all decide⟩

/-- C2 (amended): in pitchSplit mode the split pitch is the element at index
`⌊n/2⌋` of the pitch-sorted list — the UPPER median for even counts; every
note with pitch ≥ that median is RH, every other LH, and every confidence is
exactly 0.2. -/
theorem pitch_split_upper_median (notes : List NoteEvent) (sortedPitches : List Int)
    (hne : notes ≠ [])
    (hperm : sortedPitches.Perm (notes.map (·.pitch)))
    (hsorted : sortedPitches.Pairwise (· ≤ ·)) :
    pitch_split notes = notes.map (fun note =>
      (if sortedPitches.getD (notes.length / 2) 0 ≤ note.pitch then "RH" else "LH",
        (1:ℚ)/5)) := by
  have hkey : sortedPitches = sortLe intLeB (notes.map (·.pitch)) := by
    refine List.eq_of_perm_of_sorted
      (hperm.trans (sortLe_perm intLeB (notes.map (·.pitch))).symm) hsorted
      (sortLe_int_sorted (notes.map (·.pitch)))
  rw [hkey]
  cases notes with
  | nil => exact absurd rfl hne
  | cons n ns => rfl

/-- C2 witness: the amended claim evaluated on the concrete pitches
`[60, 62]`. -/
theorem pitch_split_upper_median_witness :
    pitch_split [⟨60, 0, 1, 1⟩, ⟨62, 1, 2, 1⟩] =
      ([⟨60, 0, 1, 1⟩, ⟨62, 1, 2, 1⟩] : List NoteEvent).map (fun note =>
        (if ([60, 62] : List Int).getD (2 / 2) 0 ≤ note.pitch then "RH" else "LH",
          (1:ℚ)/5)) :=
  pitch_split_upper_median [⟨60, 0, 1, 1⟩, ⟨62, 1, 2, 1⟩] [60, 62]
    (by decide) (by decide) (by decide)

/-- C4: when the requested mode is byStaff, the computed match rate is below
0.7 and the fallback policy is pitchSplit, `align_notes` reports mode
"pitchSplit", its per-note entries are exactly the pitch-median heuristic's,
and every reported confidence is 0.2. -/
theorem align_notes_fallback (notes : List NoteEvent) (score_events : List ScoreEvent)
    (st : Settings)
    (hmode : st.mode = "byStaff")
    (hfb : st.fallback = some "pitchSplit")
    (hrate : alignMatchRate notes score_events st < 7/10) :
    (align_notes notes score_events st).mode = "pitchSplit" ∧
    (align_notes notes score_events st).notes = enumEntries (pitch_split notes) ∧
    ∀ entry ∈ (align_notes notes score_events st).notes, entry.confidence = 1/5 := by
  have hps : ¬ st.mode = "pitchSplit" := by rw [hmode]; decide
  have hout : align_notes notes score_events st =
      { mode := "pitchSplit", matchedNotes := alignMatchedCount notes score_events st,
        totalNotes := notes.length, matchRate := alignMatchRate notes score_events st,
        notes := enumEntries (pitch_split notes),
        scoreMatches := (alignAssigns notes score_events st).map (·.matched) } := by
    simp only [align_notes]
    rw [if_neg hps, if_pos ⟨hmode, hrate, hfb⟩]
  refine ⟨by rw [hout], by rw [hout], ?_⟩
  intro entry hmem
  rw [hout] at hmem
  exact pitch_split_conf (enumEntriesFrom_mem hmem)

/-- C4 witness: one note, no score events, byStaff mode with pitchSplit
fallback; the match rate is 0 and the fallback fires. -/
theorem align_notes_fallback_witness :
    (align_notes [⟨60, 0, 1, 1⟩] []
      ⟨"byStaff", "discourage", [], some "pitchSplit"⟩).mode = "pitchSplit" ∧
    (align_notes [⟨60, 0, 1, 1⟩] []
      ⟨"byStaff", "discourage", [], some "pitchSplit"⟩).notes =
        enumEntries (pitch_split [⟨60, 0, 1, 1⟩]) ∧
    ∀ entry ∈ (align_notes [⟨60, 0, 1, 1⟩] []
      ⟨"byStaff", "discourage", [], some "pitchSplit"⟩).notes,
        entry.confidence = 1/5 :=
  align_notes_fallback [⟨60, 0, 1, 1⟩] [] ⟨"byStaff", "discourage", [], some "pitchSplit"⟩
    rfl rfl (by with_unfolding_all decide)

/-- C10: on an empty performance note list `align_notes` is total for every
policy and score-event list: empty notes array, matchedNotes = 0,
totalNotes = 0, matchRate = 0. -/
theorem align_notes_empty (score_events : List ScoreEvent) (st : Settings) :
    (align_notes [] score_events st).notes = [] ∧
    (align_notes [] score_events st).matchedNotes = 0 ∧
    (align_notes [] score_events st).totalNotes = 0 ∧
    (align_notes [] score_events st).matchRate = 0 := by
  have hmr : alignMatchRate [] score_events st = 0 := by
    simp [alignMatchRate, alignMatchedCount, alignAssigns]
  simp only [align_notes]
  split
  · exact ⟨rfl, rfl, rfl, rfl⟩
  · split
    · exact ⟨rfl, rfl, rfl, hmr⟩
    · exact ⟨rfl, rfl, rfl, hmr⟩

/-- C9: region export retains exactly the notes whose `startTime` lies in
`[startSeconds, endSeconds)`, shifted by `−startSeconds`; `totalTime` is
`endSeconds − startSeconds` unless some retained note's shifted `endTime`
exceeds it, in which case it is the maximum shifted `endTime`. -/
theorem slice_region_export (notes : List NoteEvent) (s e : ℚ) :
    (∀ n', n' ∈ sliceNotes notes s e ↔
      ∃ n, n ∈ notes ∧ s ≤ n.startTime ∧ n.startTime < e ∧ n' = shiftNote s n) ∧
    ((∀ n' ∈ sliceNotes notes s e, n'.endTime ≤ e - s) →
      sliceTotalTime notes s e = e - s) ∧
    (∀ n' ∈ sliceNotes notes s e, e - s < n'.endTime →
      (∃ m' ∈ sliceNotes notes s e, sliceTotalTime notes s e = m'.endTime) ∧
      ∀ m' ∈ sliceNotes notes s e, m'.endTime ≤ sliceTotalTime notes s e) := by
  refine ⟨?_, ?_, ?_⟩
  · intro n'
    simp only [sliceNotes, List.mem_map, List.mem_filter, decide_eq_true_eq]
    constructor
    · rintro ⟨n, ⟨hn, hs, he⟩, rfl⟩
      exact ⟨n, hn, hs, he, rfl⟩
    · rintro ⟨n, hn, hs, he, rfl⟩
      exact ⟨n, ⟨hn, hs, he⟩, rfl⟩
  · intro hall
    simp only [sliceTotalTime]
    cases hsl : sliceNotes notes s e with
    | nil => rfl
    | cons hd tl =>
      simp only
      rw [if_neg]
      simp only [not_lt]
      have hmem := listMax_mem (l := (hd :: tl).map (·.endTime)) (by simp)
      rcases List.mem_map.mp hmem with ⟨m', hm', heq⟩
      rw [← heq]
      exact hall m' (by rw [hsl]; exact hm')
  · intro n' hn' hgt
    have hne : sliceNotes notes s e ≠ [] := by
      intro h
      rw [h] at hn'
      cases hn'
    have hub : ∀ m' ∈ sliceNotes notes s e,
        m'.endTime ≤ listMax ((sliceNotes notes s e).map (·.endTime)) := by
      intro m' hm'
      exact listMax_le_of_mem (List.mem_map_of_mem _ hm')
    have hmax_gt : e - s < listMax ((sliceNotes notes s e).map (·.endTime)) :=
      lt_of_lt_of_le hgt (hub n' hn')
    have htot : sliceTotalTime notes s e =
        listMax ((sliceNotes notes s e).map (·.endTime)) := by
      simp only [sliceTotalTime]
      cases hsl : sliceNotes notes s e with
      | nil => exact absurd hsl hne
      | cons hd tl =>
        simp only
        rw [if_pos (by rw [← hsl]; exact hmax_gt)]
    rcases List.mem_map.mp (listMax_mem (l := (sliceNotes notes s e).map (·.endTime))
      (by simpa using hne)) with ⟨m', hm', hmeq⟩
    refine ⟨⟨m', hm', by rw [htot, hmeq]⟩, ?_⟩
    intro m'' hm''
    rw [htot]
    exact hub m'' hm''

/-- C9 witness: a concrete slice where one retained note rings past the
nominal boundary, so `totalTime` extends to its shifted `endTime`. -/
theorem slice_region_export_witness :
    ((⟨64, 1, 5, 1⟩ : NoteEvent) ∈
        sliceNotes [⟨60, 0, 1, 1⟩, ⟨64, 2, 6, 1⟩, ⟨67, 9, 10, 1⟩] 1 3 ↔
      ∃ n, n ∈ ([⟨60, 0, 1, 1⟩, ⟨64, 2, 6, 1⟩, ⟨67, 9, 10, 1⟩] : List NoteEvent) ∧
        1 ≤ n.startTime ∧ n.startTime < 3 ∧ (⟨64, 1, 5, 1⟩ : NoteEvent) = shiftNote 1 n) ∧
    ((∃ m' ∈ sliceNotes [⟨60, 0, 1, 1⟩, ⟨64, 2, 6, 1⟩, ⟨67, 9, 10, 1⟩] 1 3,
        sliceTotalTime [⟨60, 0, 1, 1⟩, ⟨64, 2, 6, 1⟩, ⟨67, 9, 10, 1⟩] 1 3 = m'.endTime) ∧
      ∀ m' ∈ sliceNotes [⟨60, 0, 1, 1⟩, ⟨64, 2, 6, 1⟩, ⟨67, 9, 10, 1⟩] 1 3,
        m'.endTime ≤ sliceTotalTime [⟨60, 0, 1, 1⟩, ⟨64, 2, 6, 1⟩, ⟨67, 9, 10, 1⟩] 1 3) :=
  ⟨(slice_region_export [⟨60, 0, 1, 1⟩, ⟨64, 2, 6, 1⟩, ⟨67, 9, 10, 1⟩] 1 3).1 ⟨64, 1, 5, 1⟩,
    (slice_region_export [⟨60, 0, 1, 1⟩, ⟨64, 2, 6, 1⟩, ⟨67, 9, 10, 1⟩] 1 3).2.2
      ⟨64, 1, 5, 1⟩ (by with_unfolding_all decide) (by with_unfolding_all decide)⟩

theorem noteLeB_iff (a b : NoteEvent) :
    noteLeB a b = true ↔
      (a.startTime < b.startTime ∨ (a.startTime = b.startTime ∧
        (a.pitch < b.pitch ∨ (a.pitch = b.pitch ∧ a.endTime ≤ b.endTime)))) := by
  simp [noteLeB, Bool.or_eq_true, Bool.and_eq_true, decide_eq_true_eq]

theorem noteLeB_total (a b : NoteEvent) : noteLeB a b = true ∨ noteLeB b a = true := by
  rw [noteLeB_iff, noteLeB_iff]
  rcases lt_trichotomy a.startTime b.startTime with h | h | h
  · exact Or.inl (Or.inl h)
  · rcases lt_trichotomy a.pitch b.pitch with h2 | h2 | h2
    · exact Or.inl (Or.inr ⟨h, Or.inl h2⟩)
    · rcases le_total a.endTime b.endTime with h3 | h3
      · exact Or.inl (Or.inr ⟨h, Or.inr ⟨h2, h3⟩⟩)
      · exact Or.inr (Or.inr ⟨h.symm, Or.inr ⟨h2.symm, h3⟩⟩)
    · exact Or.inr (Or.inr ⟨h.symm, Or.inl h2⟩)
  · exact Or.inr (Or.inl h)

theorem noteLeB_trans (a b c : NoteEvent) (h1 : noteLeB a b = true)
    (h2 : noteLeB b c = true) : noteLeB a c = true := by
  rw [noteLeB_iff] at h1 h2 ⊢
  rcases h1 with h1 | ⟨h1e, h1r⟩
  · rcases h2 with h2 | ⟨h2e, _⟩
    · exact Or.inl (h1.trans h2)
    · exact Or.inl (h2e ▸ h1)
  · rcases h2 with h2 | ⟨h2e, h2r⟩
    · exact Or.inl (h1e ▸ h2)
    · refine Or.inr ⟨h1e.trans h2e, ?_⟩
      rcases h1r with h1r | ⟨h1p, h1t⟩
      · rcases h2r with h2r | ⟨h2p, _⟩
        · exact Or.inl (h1r.trans h2r)
        · exact Or.inl (h2p ▸ h1r)
      · rcases h2r with h2r | ⟨h2p, h2t⟩
        · exact Or.inl (h1p ▸ h2r)
        · exact Or.inr ⟨h1p.trans h2p, h1t.trans h2t⟩

/-- Sortedness by the `(startTime, pitch, endTime)` key. -/
def NotesSorted (notes : List NoteEvent) : Prop :=
  notes.Pairwise (fun a b => noteLeB a b = true)

instance (notes : List NoteEvent) : Decidable (NotesSorted notes) := by
  unfold NotesSorted
  infer_instance

theorem splitGo_fst_sublist (l : List (NoteEvent × String)) :
    (splitGo l).1.Sublist (l.map Prod.fst) := by
  induction l with
  | nil => simp [splitGo]
  | cons p rest ih =>
    rcases p with ⟨n, h⟩
    simp only [splitGo, List.map_cons]
    by_cases h1 : h = "RH"
    · rw [if_pos h1]
      exact ih.cons₂ n
    · rw [if_neg h1]
      by_cases h2 : h = "LH"
      · rw [if_pos h2]
        exact ih.cons n
      · rw [if_neg h2]
        exact ih.cons n

theorem splitGo_snd_sublist (l : List (NoteEvent × String)) :
    (splitGo l).2.Sublist (l.map Prod.fst) := by
  induction l with
  | nil => simp [splitGo]
  | cons p rest ih =>
    rcases p with ⟨n, h⟩
    simp only [splitGo, List.map_cons]
    by_cases h1 : h = "RH"
    · rw [if_pos h1]
      exact ih.cons n
    · rw [if_neg h1]
      by_cases h2 : h = "LH"
      · rw [if_pos h2]
        exact ih.cons₂ n
      · rw [if_neg h2]
        exact ih.cons n

theorem zip_map_fst_sublist (notes : List NoteEvent) (hands : List String) :
    ((notes.zip hands).map Prod.fst).Sublist notes := by
  induction notes generalizing hands with
  | nil => simp
  | cons n ns ih =>
    cases hands with
    | nil => simp
    | cons h hs =>
      simp only [List.zip_cons_cons, List.map_cons]
      exact (ih hs).cons₂ n

/-- C8: every note sequence the pipeline produces or consumes is sorted by
`(startTime, pitch, endTime)`: `midi_to_note_sequence` sorts its output, and
hand splitting and nugget slicing preserve sortedness of any sorted input. -/
theorem note_order_invariant :
    (∀ instruments : List (List NoteEvent),
      NotesSorted (midi_to_note_sequence instruments)) ∧
    (∀ (notes : List NoteEvent) (hands : List String), NotesSorted notes →
      NotesSorted (split_note_sequence notes hands).1 ∧
      NotesSorted (split_note_sequence notes hands).2) ∧
    (∀ (notes : List NoteEvent) (s e : ℚ), NotesSorted notes →
      NotesSorted (sliceNotes notes s e)) := by
  refine ⟨?_, ?_, ?_⟩
  · intro instruments
    exact sortLe_pairwise noteLeB noteLeB_total noteLeB_trans instruments.flatten
  · intro notes hands hsorted
    have hzip : ((notes.zip hands).map Prod.fst).Pairwise (fun a b => noteLeB a b = true) :=
      hsorted.sublist (zip_map_fst_sublist notes hands)
    exact ⟨hzip.sublist (splitGo_fst_sublist (notes.zip hands)),
      hzip.sublist (splitGo_snd_sublist (notes.zip hands))⟩
  · intro notes s e hsorted
    have hfilter : (notes.filter (fun note =>
        decide (s ≤ note.startTime ∧ note.startTime < e))).Pairwise
          (fun a b => noteLeB a b = true) := hsorted.sublist (List.filter_sublist notes)
    refine List.pairwise_map.mpr (hfilter.imp ?_)
    intro a b hab
    rw [noteLeB_iff] at hab ⊢
    simp only [shiftNote]
    rcases hab with h | ⟨he, hr⟩
    · exact Or.inl (by linarith)
    · refine Or.inr ⟨by rw [he], ?_⟩
      rcases hr with h | ⟨hp, ht⟩
      · exact Or.inl h
      · exact Or.inr ⟨hp, by linarith⟩

/-- C8 witness: concrete instantiations of all three parts of the ordering
invariant. -/
theorem note_order_invariant_witness :
    NotesSorted (midi_to_note_sequence [[⟨67, 1, 2, 1⟩, ⟨60, 0, 1, 1⟩]]) ∧
    (NotesSorted (split_note_sequence [⟨60, 0, 1, 1⟩, ⟨67, 1, 2, 1⟩] ["RH", "LH"]).1 ∧
      NotesSorted (split_note_sequence [⟨60, 0, 1, 1⟩, ⟨67, 1, 2, 1⟩] ["RH", "LH"]).2) ∧
    NotesSorted (sliceNotes [⟨60, 0, 1, 1⟩, ⟨67, 1, 2, 1⟩] 0 2) :=
  ⟨note_order_invariant.1 [[⟨67, 1, 2, 1⟩, ⟨60, 0, 1, 1⟩]],
    note_order_invariant.2.1 [⟨60, 0, 1, 1⟩, ⟨67, 1, 2, 1⟩] ["RH", "LH"]
      (by with_unfolding_all decide),
    note_order_invariant.2.2 [⟨60, 0, 1, 1⟩, ⟨67, 1, 2, 1⟩] 0 2
      (by with_unfolding_all decide)⟩

theorem filter_map_pitch (score_events : List ScoreEvent) (shift : ℚ) (p : Int) :
    (score_events.map (shiftEvent shift)).filter (fun ev => ev.pitch = p) =
      (score_events.filter (fun ev => ev.pitch = p)).map (shiftEvent shift) := by
  induction score_events with
  | nil => rfl
  | cons ev rest ih =>
    simp only [List.map_cons, List.filter_cons]
    by_cases h : ev.pitch = p
    · simp [h, ih, shiftEvent]
    · simp [h, ih, shiftEvent]

theorem bestMatchGo_shift (shift tolerance : ℚ) (note : NoteEvent)
    (l : List ScoreEvent) :
    ∀ best, bestMatchGo 0 tolerance note
      (best.map (shiftEventPair shift)) (l.map (shiftEvent shift)) =
    (bestMatchGo shift tolerance note best l).map (shiftEventPair shift) := by
  induction l with
  | nil => intro best; rfl
  | cons ev rest ih =>
    intro best
    simp only [List.map_cons, bestMatchGo, shiftEvent, add_zero]
    have hbt : betterThan |ev.onset_seconds + shift - note.startTime|
        (best.map (shiftEventPair shift)) =
        betterThan |ev.onset_seconds + shift - note.startTime| best := by
      cases best <;> rfl
    rw [hbt]
    by_cases hok : (decide (|ev.onset_seconds + shift - note.startTime| ≤ tolerance) &&
        betterThan |ev.onset_seconds + shift - note.startTime| best) = true
    · rw [if_pos hok, if_pos hok]
      exact ih (some (ev, |ev.onset_seconds + shift - note.startTime|))
    · rw [if_neg hok, if_neg hok]
      exact ih best

/-- C5 (part): the global shift is added to every score onset before each
per-note distance comparison — matching with the shift equals matching
against shift-translated score events with zero shift. -/
theorem bestMatch_shift_onsets (score_events : List ScoreEvent) (shift tolerance : ℚ)
    (note : NoteEvent) :
    bestMatch (score_events.map (shiftEvent shift)) 0 tolerance note =
      (bestMatch score_events shift tolerance note).map (shiftEventPair shift) := by
  unfold bestMatch
  rw [filter_map_pitch]
  exact bestMatchGo_shift shift tolerance note
    (score_events.filter (fun ev => ev.pitch = note.pitch)) none

theorem medianDelta_mem {notes : List NoteEvent} {score_events : List ScoreEvent}
    (hne : shiftDeltas notes score_events ≠ []) :
    medianDelta notes score_events ∈ sortLe ratLeB (shiftDeltas notes score_events) := by
  have hlen : (sortLe ratLeB (shiftDeltas notes score_events)).length =
      (shiftDeltas notes score_events).length :=
    (sortLe_perm ratLeB (shiftDeltas notes score_events)).length_eq
  have hpos : 0 < (sortLe ratLeB (shiftDeltas notes score_events)).length := by
    rw [hlen]
    exact List.length_pos.mpr hne
  have hbound : (sortLe ratLeB (shiftDeltas notes score_events)).length / 2 <
      (sortLe ratLeB (shiftDeltas notes score_events)).length :=
    Nat.div_lt_self hpos (by norm_num)
  rw [medianDelta, List.getD_eq_getElem _ _ hbound]
  exact List.getElem_mem hbound

/-- C5 (amended): deltas are collected over the first min(20, N) performance
notes × first min(100, M) score events; with no deltas the global shift is 0;
with deltas it is the mean of all deltas STRICTLY within 2.0s of the median
delta (the code uses `< 2.0`, not `≤ 2.0`); and the shift is added to every
score onset before each per-note distance comparison. -/
theorem global_shift_spec (notes : List NoteEvent) (score_events : List ScoreEvent) :
    (shiftDeltas notes score_events = [] → globalShift notes score_events = 0) ∧
    (shiftDeltas notes score_events ≠ [] →
      globalShift notes score_events =
        listMean ((shiftDeltas notes score_events).filter
          (fun d => decide (|d - medianDelta notes score_events| < 2)))) ∧
    (∀ (tolerance : ℚ) (note : NoteEvent),
      bestMatch (score_events.map (shiftEvent (globalShift notes score_events)))
          0 tolerance note =
        (bestMatch score_events (globalShift notes score_events) tolerance note).map
          (shiftEventPair (globalShift notes score_events))) := by
  refine ⟨?_, ?_, fun tolerance note => bestMatch_shift_onsets _ _ tolerance note⟩
  · intro h
    simp only [globalShift, h, sortLe]
  · intro hne
    have hmem := medianDelta_mem hne
    have hperm := sortLe_perm ratLeB (shiftDeltas notes score_events)
    cases hs : sortLe ratLeB (shiftDeltas notes score_events) with
    | nil =>
      rw [hs] at hmem
      cases hmem
    | cons hd tl =>
      have hmedian : medianDelta notes score_events =
          (hd :: tl).getD ((hd :: tl).length / 2) 0 := by
        rw [medianDelta, hs]
      have hcluster_perm : ((hd :: tl).filter
          (fun d => decide (|d - (hd :: tl).getD ((hd :: tl).length / 2) 0| < 2))).Perm
          ((shiftDeltas notes score_events).filter
            (fun d => decide (|d - medianDelta notes score_events| < 2))) := by
        rw [← hmedian]
        exact (hs ▸ hperm).filter _
      have hcluster_ne : (hd :: tl).filter
          (fun d => decide (|d - (hd :: tl).getD ((hd :: tl).length / 2) 0| < 2)) ≠ [] := by
        have hmem' : (hd :: tl).getD ((hd :: tl).length / 2) 0 ∈ (hd :: tl) := by
          rw [← hmedian, ← hs]
          exact hmem
        intro hnil
        have : (hd :: tl).getD ((hd :: tl).length / 2) 0 ∈ (hd :: tl).filter
            (fun d => decide (|d - (hd :: tl).getD ((hd :: tl).length / 2) 0| < 2)) := by
          rw [List.mem_filter]
          refine ⟨hmem', by simp⟩
        rw [hnil] at this
        cases this
      simp only [globalShift, hs]
      cases hc : (hd :: tl).filter
          (fun d => decide (|d - (hd :: tl).getD ((hd :: tl).length / 2) 0| < 2)) with
      | nil => exact absurd hc hcluster_ne
      | cons c cs =>
        simp only [listMean]
        rw [← hc, hcluster_perm.sum_eq, hcluster_perm.length_eq]

/-- C5 counterexample: deltas `{0, 2}` give median 2; the code's strict
cluster `|d − 2| < 2` keeps only `{2}` (shift 2), while the claim's
"within ±2.0s" cluster `{0, 2}` averages to 1. -/
theorem global_shift_counterexample :
    globalShift [⟨60, 2, 3, 1⟩] [⟨60, 1, 1, 1, 0, 0⟩, ⟨60, 1, 1, 1, 2, 2⟩] = 2 ∧
    spec_global_shift_incl [⟨60, 2, 3, 1⟩] [⟨60, 1, 1, 1, 0, 0⟩, ⟨60, 1, 1, 1, 2, 2⟩] = 1 ∧
    globalShift [⟨60, 2, 3, 1⟩] [⟨60, 1, 1, 1, 0, 0⟩, ⟨60, 1, 1, 1, 2, 2⟩] ≠
      spec_global_shift_incl [⟨60, 2, 3, 1⟩] [⟨60, 1, 1, 1, 0, 0⟩, ⟨60, 1, 1, 1, 2, 2⟩] := by
  refine ⟨by with_unfolding_all decide, by with_unfolding_all decide,
    by with_unfolding_all decide⟩

/-- C5 witness: the amended claim at a concrete one-delta input. -/
theorem global_shift_spec_witness :
    globalShift [⟨60, 1, 2, 1⟩] [⟨60, 1, 1, 1, 0, 0⟩] =
      listMean ((shiftDeltas [⟨60, 1, 2, 1⟩] [⟨60, 1, 1, 1, 0, 0⟩]).filter
        (fun d => decide (|d - medianDelta [⟨60, 1, 2, 1⟩] [⟨60, 1, 1, 1, 0, 0⟩]| < 2))) ∧
    bestMatch ([⟨60, 1, 1, 1, 0, 0⟩].map
        (shiftEvent (globalShift [⟨60, 1, 2, 1⟩] [⟨60, 1, 1, 1, 0, 0⟩]))) 0 1 ⟨60, 1, 2, 1⟩ =
      (bestMatch [⟨60, 1, 1, 1, 0, 0⟩]
        (globalShift [⟨60, 1, 2, 1⟩] [⟨60, 1, 1, 1, 0, 0⟩]) 1 ⟨60, 1, 2, 1⟩).map
        (shiftEventPair (globalShift [⟨60, 1, 2, 1⟩] [⟨60, 1, 1, 1, 0, 0⟩])) :=
  ⟨(global_shift_spec [⟨60, 1, 2, 1⟩] [⟨60, 1, 1, 1, 0, 0⟩]).2.1
      (by with_unfolding_all decide),
    (global_shift_spec [⟨60, 1, 2, 1⟩] [⟨60, 1, 1, 1, 0, 0⟩]).2.2 1 ⟨60, 1, 2, 1⟩⟩

/-! ## select_notes machinery -/

theorem mem_windowIndices {notes : List NoteEvent} {s e : ℚ} {idx : Nat} :
    idx ∈ windowIndices notes s e ↔
      idx < notes.length ∧ s ≤ (notes.getD idx defNote).startTime ∧
        (notes.getD idx defNote).startTime < e := by
  simp [windowIndices, List.mem_filter, List.mem_range, and_assoc]

theorem windowIndices_sorted (notes : List NoteEvent) (s e : ℚ) :
    (windowIndices notes s e).Pairwise (· < ·) :=
  (List.pairwise_lt_range notes.length).sublist (List.filter_sublist _)

theorem pairwise_lt_head_le {a : Nat} {l : List Nat}
    (h : (a :: l).Pairwise (· < ·)) : ∀ b ∈ a :: l, a ≤ b := by
  intro b hb
  rcases List.mem_cons.mp hb with rfl | hb'
  · exact le_refl b
  · exact le_of_lt ((List.pairwise_cons.mp h).1 b hb')

theorem pairwise_lt_le_getLast : ∀ {l : List Nat}, l.Pairwise (· < ·) →
    ∀ (hne : l ≠ []), ∀ b ∈ l, b ≤ l.getLast hne
  | [], _, hne => absurd rfl hne
  | [a], _, _ => by
    intro b hb
    rcases List.mem_cons.mp hb with rfl | hb'
    · simp
    · cases hb'
  | a :: c :: cs, h, hne => by
    intro b hb
    rw [List.getLast_cons (l := c :: cs) (by simp)]
    rcases List.pairwise_cons.mp h with ⟨ha, htail⟩
    rcases List.mem_cons.mp hb with rfl | hb'
    · exact le_of_lt (lt_of_lt_of_le (ha c (by simp))
        (pairwise_lt_le_getLast htail (by simp) c (by simp)))
    · exact pairwise_lt_le_getLast htail (by simp) b hb'

theorem expandLeft_le (notes : List NoteEvent) (t0 : ℚ) (i : Nat) :
    expandLeft notes t0 i ≤ i := by
  induction i with
  | zero => exact le_refl 0
  | succ i ih =>
    simp only [expandLeft]
    split
    · exact le_trans ih (Nat.le_succ i)
    · exact le_refl (i + 1)

theorem expandLeft_window (notes : List NoteEvent) (t0 : ℚ) (i : Nat) :
    ∀ k, expandLeft notes t0 i ≤ k → k < i →
      |(notes.getD k defNote).startTime - t0| ≤ EPS := by
  induction i with
  | zero => intro k _ hk; cases hk
  | succ i ih =>
    intro k hk1 hk2
    by_cases hcond : |(notes.getD i defNote).startTime - t0| ≤ EPS
    · rw [expandLeft, if_pos hcond] at hk1
      rcases Nat.lt_succ_iff_lt_or_eq.mp hk2 with hk | rfl
      · exact ih k hk1 hk
      · exact hcond
    · rw [expandLeft, if_neg hcond] at hk1
      exact absurd hk2 (not_lt.mpr hk1)

theorem expandRightA_ge (notes : List NoteEvent) (t1 : ℚ) (fuel i : Nat) :
    i ≤ expandRightA notes t1 fuel i := by
  induction fuel generalizing i with
  | zero => exact le_refl i
  | succ fuel ih =>
    simp only [expandRightA]
    split
    · exact le_trans (Nat.le_succ i) (ih (i + 1))
    · exact le_refl i

theorem expandRightA_window (notes : List NoteEvent) (t1 : ℚ) (fuel i : Nat) :
    ∀ k, i < k → k ≤ expandRightA notes t1 fuel i →
      |(notes.getD k defNote).startTime - t1| ≤ EPS := by
  induction fuel generalizing i with
  | zero => intro k hk1 hk2; exact absurd hk1 (not_lt.mpr hk2)
  | succ fuel ih =>
    intro k hk1 hk2
    by_cases hcond : i + 1 < notes.length ∧
        |(notes.getD (i + 1) defNote).startTime - t1| ≤ EPS
    · rw [expandRightA, if_pos hcond] at hk2
      rcases Nat.lt_iff_add_one_le.mp hk1 |>.lt_or_eq with hk | hk
      · exact ih (i + 1) k hk hk2
      · rw [← hk]
        exact hcond.2
    · rw [expandRightA, if_neg hcond] at hk2
      exact absurd hk1 (not_lt.mpr hk2)

theorem expandRight_ge (notes : List NoteEvent) (t1 : ℚ) (i : Nat) :
    i ≤ expandRight notes t1 i :=
  expandRightA_ge notes t1 notes.length i

theorem expandRight_window (notes : List NoteEvent) (t1 : ℚ) (i : Nat) :
    ∀ k, i < k → k ≤ expandRight notes t1 i →
      |(notes.getD k defNote).startTime - t1| ≤ EPS :=
  expandRightA_window notes t1 notes.length i

/-- Structure of a successful `_select_notes`: the raw window head `i0` and
last `i1` delimit all window indices, and the resolved range is their
chord-onset expansion. -/
theorem select_notes_spec {notes : List NoteEvent} {s e : ℚ} {r : NuggetRange}
    (h : select_notes notes s e = some r) :
    ∃ i0 i1, i0 ∈ windowIndices notes s e ∧ i1 ∈ windowIndices notes s e ∧
      (∀ i ∈ windowIndices notes s e, i0 ≤ i ∧ i ≤ i1) ∧
      r.note_start_index = expandLeft notes ((notes.getD i0 defNote).startTime) i0 ∧
      r.note_end_index = expandRight notes ((notes.getD i1 defNote).startTime) i1 := by
  unfold select_notes at h
  split at h
  · cases h
  · rename_i i0 rest hw
    have hr := Option.some.inj h
    have hsorted : (i0 :: rest).Pairwise (· < ·) := by
      rw [← hw]
      exact windowIndices_sorted notes s e
    refine ⟨i0, (i0 :: rest).getLast (by simp), ?_, ?_, ?_, ?_, ?_⟩
    · rw [hw]
      exact List.mem_cons_self i0 rest
    · rw [hw]
      exact List.getLast_mem (by simp)
    · intro i hi
      rw [hw] at hi
      exact ⟨pairwise_lt_head_le hsorted i hi,
        pairwise_lt_le_getLast hsorted (by simp) i hi⟩
    · rw [← hr]
    · rw [← hr]

/-- Coverage: every note whose startTime lies in the window has its index
inside the resolved range. -/
theorem select_notes_covers {notes : List NoteEvent} {s e : ℚ} {r : NuggetRange}
    (h : select_notes notes s e = some r) :
    ∀ i, i < notes.length → s ≤ (notes.getD i defNote).startTime →
      (notes.getD i defNote).startTime < e →
      r.note_start_index ≤ i ∧ i ≤ r.note_end_index := by
  rcases select_notes_spec h with ⟨i0, i1, _, _, hbetween, hstart, hend⟩
  intro i hi hs he
  have hmem : i ∈ windowIndices notes s e := mem_windowIndices.mpr ⟨hi, hs, he⟩
  rcases hbetween i hmem with ⟨h0, h1⟩
  constructor
  · exact le_trans (hstart ▸ expandLeft_le notes _ i0) h0
  · exact le_trans h1 (hend ▸ expandRight_ge notes _ i1)

theorem resolveTracks_cons_none {st et : ℚ} {n0 : String} {ns0 : List NoteEvent}
    {rest : List (String × List NoteEvent)}
    (hsel : select_notes ns0 st et = none) :
    resolveTracks st et ((n0, ns0) :: rest) =
      if n0 = "full" then .error "Nugget resolved to zero notes"
      else resolveTracks st et rest := by
  simp only [resolveTracks, hsel]

theorem resolveTracks_cons_some {st et : ℚ} {n0 : String} {ns0 : List NoteEvent}
    {rest : List (String × List NoteEvent)} {r0 : NuggetRange}
    (hsel : select_notes ns0 st et = some r0) :
    resolveTracks st et ((n0, ns0) :: rest) =
      match resolveTracks st et rest with
      | .error msg => .error msg
      | .ok tail => .ok ((n0, r0) :: tail) := by
  simp only [resolveTracks, hsel]
  cases resolveTracks st et rest <;> rfl

theorem resolveTracks_mem {st et : ℚ} {tracks : List (String × List NoteEvent)}
    {res : List (String × NuggetRange)}
    (h : resolveTracks st et tracks = .ok res) :
    ∀ name notes, (name, notes) ∈ tracks →
      ∀ r, select_notes notes st et = some r → (name, r) ∈ res := by
  induction tracks generalizing res with
  | nil =>
    intro name notes hmem
    cases hmem
  | cons track rest ih =>
    rcases track with ⟨n0, ns0⟩
    intro name notes hmem r hsel
    cases hsel0 : select_notes ns0 st et with
    | none =>
      rw [resolveTracks_cons_none hsel0] at h
      by_cases hfull : n0 = "full"
      · rw [if_pos hfull] at h
        cases h
      · rw [if_neg hfull] at h
        rcases List.mem_cons.mp hmem with heq | hmem'
        · injection heq with hn hns
          rw [← hns] at hsel0
          rw [hsel0] at hsel
          cases hsel
        · exact ih h name notes hmem' r hsel
    | some r0 =>
      rw [resolveTracks_cons_some hsel0] at h
      cases hrest : resolveTracks st et rest with
      | error msg =>
        rw [hrest] at h
        cases h
      | ok tail =>
        rw [hrest] at h
        have h' : ((n0, r0) :: tail) = res := Except.ok.inj h
        rw [← h']
        rcases List.mem_cons.mp hmem with heq | hmem'
        · injection heq with hn hns
          rw [← hns] at hsel0
          rw [hsel0] at hsel
          have hr := Option.some.inj hsel
          rw [hn, ← hr]
          exact List.mem_cons_self _ _
        · exact List.mem_cons_of_mem _ (ih hrest name notes hmem' r hsel)

theorem resolveNugget_tracks {part : PartModel} {bs : List Boundary} {loc : Location}
    {tracks : List (String × List NoteEvent)} {so eo : ℚ}
    {res : List (String × NuggetRange)}
    (h1 : measure_offset part loc.startMeasure loc.startBeat = .ok so)
    (h2 : measure_offset part loc.endMeasure loc.endBeat = .ok eo)
    (hres : resolveNugget part bs loc tracks = .ok res) :
    resolveTracks (offset_to_seconds so bs) (offset_to_seconds eo bs) tracks = .ok res := by
  unfold resolveNugget at hres
  rw [h1, h2] at hres
  simpa [Except.bind] using hres

/-- C1 (amended): resolving a nugget selects notes for EVERY track, the full
track included, by the absolute-time window `[startSeconds, endSeconds)`
computed via the tempo map — the per-track range is `select_notes` applied to
that window and it covers every note whose own startTime lies in the window;
the symbolic matched-ScoreEvent data plays no role (resolution never reads
it). -/
theorem resolve_full_track_time_window (part : PartModel) (bs : List Boundary)
    (loc : Location) (tracks : List (String × List NoteEvent))
    (so eo : ℚ) (res : List (String × NuggetRange))
    (h1 : measure_offset part loc.startMeasure loc.startBeat = .ok so)
    (h2 : measure_offset part loc.endMeasure loc.endBeat = .ok eo)
    (hres : resolveNugget part bs loc tracks = .ok res) :
    ∀ name notes, (name, notes) ∈ tracks →
      ∀ r, select_notes notes (offset_to_seconds so bs) (offset_to_seconds eo bs) = some r →
        (name, r) ∈ res ∧
        ∀ i, i < notes.length →
          offset_to_seconds so bs ≤ (notes.getD i defNote).startTime →
          (notes.getD i defNote).startTime < offset_to_seconds eo bs →
          r.note_start_index ≤ i ∧ i ≤ r.note_end_index := by
  intro name notes hmem r hsel
  exact ⟨resolveTracks_mem (resolveNugget_tracks h1 h2 hres) name notes hmem r hsel,
    select_notes_covers hsel⟩

/-- C1 counterexample: a performance note (index 1) whose matched ScoreEvent
lies inside the nugget's measure/beat span but whose own startTime (10s,
timing noise) lies outside the time window. The claim says index 1 is
selected for the full track; the code's time-window selection excludes it. -/
theorem resolve_full_track_counterexample :
    resolveNugget ⟨[⟨1, 0, some 1⟩], some 1⟩ [⟨0, none, 120⟩] ⟨1, 1, 1, 2⟩
        [("full", [⟨60, 0, 1/2, 1⟩, ⟨64, 10, 21/2, 1⟩])] =
      .ok [("full", ⟨0, 0, 0, 1/2⟩)] ∧
    spec_symbolic_select [some ⟨60, 1, 1, 1, 0, 0⟩, some ⟨64, 1, 3/2, 1, 1/2, 1/2⟩]
        ⟨1, 1, 1, 2⟩ = [0, 1] ∧
    (1 ∈ spec_symbolic_select [some ⟨60, 1, 1, 1, 0, 0⟩, some ⟨64, 1, 3/2, 1, 1/2, 1/2⟩]
        ⟨1, 1, 1, 2⟩ ∧
      ¬((⟨0, 0, 0, 1/2⟩ : NuggetRange).note_start_index ≤ 1 ∧
        1 ≤ (⟨0, 0, 0, 1/2⟩ : NuggetRange).note_end_index)) := by
  refine ⟨by with_unfolding_all rfl, by with_unfolding_all decide,
    by with_unfolding_all decide, by with_unfolding_all decide⟩

/-- C7: after the raw time-window selection `[i0, i1]`, the range is expanded
outward only over neighbours within 1e-6s of the boundary onsets; hence two
notes sharing an identical startTime with one of them in the window (and so
inside the raw selected range) both end up inside the resolved range — a
chord is never split across a nugget boundary. -/
theorem select_notes_chord_boundary (notes : List NoteEvent) (s e : ℚ)
    (r : NuggetRange) (h : select_notes notes s e = some r) :
    (∃ i0 i1,
      i0 ∈ windowIndices notes s e ∧ i1 ∈ windowIndices notes s e ∧
      (∀ i ∈ windowIndices notes s e, i0 ≤ i ∧ i ≤ i1) ∧
      r.note_start_index ≤ i0 ∧ i1 ≤ r.note_end_index ∧
      (∀ k, r.note_start_index ≤ k → k < i0 →
        |(notes.getD k defNote).startTime - (notes.getD i0 defNote).startTime| ≤ EPS) ∧
      (∀ k, i1 < k → k ≤ r.note_end_index →
        |(notes.getD k defNote).startTime - (notes.getD i1 defNote).startTime| ≤ EPS)) ∧
    (∀ i j, i < notes.length → j < notes.length →
      (notes.getD j defNote).startTime = (notes.getD i defNote).startTime →
      s ≤ (notes.getD i defNote).startTime →
      (notes.getD i defNote).startTime < e →
      r.note_start_index ≤ j ∧ j ≤ r.note_end_index) := by
  constructor
  · rcases select_notes_spec h with ⟨i0, i1, h0, h1, hbetween, hstart, hend⟩
    refine ⟨i0, i1, h0, h1, hbetween, ?_, ?_, ?_, ?_⟩
    · exact hstart ▸ expandLeft_le notes _ i0
    · exact hend ▸ expandRight_ge notes _ i1
    · intro k hk1 hk2
      exact expandLeft_window notes _ i0 k (hstart ▸ hk1) hk2
    · intro k hk1 hk2
      exact expandRight_window notes _ i1 k hk1 (hend ▸ hk2)
  · intro i j hi hj hsame hs he
    exact select_notes_covers h j hj (hsame ▸ hs) (hsame ▸ he)

/-- C7 witness: two notes share startTime 1; the window `[1, 3/2)` covers
them and a third later note is excluded; the resolved range keeps the whole
chord. -/
theorem select_notes_chord_boundary_witness :
    ((⟨60, 1, 2, 1⟩ : NoteEvent) :: [⟨64, 1, 2, 1⟩, ⟨67, 5, 6, 1⟩]).length = 3 ∧
    (select_notes [⟨60, 1, 2, 1⟩, ⟨64, 1, 2, 1⟩, ⟨67, 5, 6, 1⟩] 1 (3/2) =
      some ⟨0, 1, 1, 2⟩) ∧
    (0 : Nat) ≤ 1 ∧ (1 : Nat) ≤ 1 :=
  ⟨rfl, by with_unfolding_all rfl,
    ((select_notes_chord_boundary [⟨60, 1, 2, 1⟩, ⟨64, 1, 2, 1⟩, ⟨67, 5, 6, 1⟩] 1 (3/2)
      ⟨0, 1, 1, 2⟩ (by with_unfolding_all rfl)).2 0 1 (by decide) (by decide)
      (by with_unfolding_all decide) (by with_unfolding_all decide)
      (by with_unfolding_all decide))⟩

/-- C1 witness: the amended claim evaluated on a one-measure score with a
single in-window note. -/
theorem resolve_full_track_time_window_witness :
    ("full", (⟨0, 0, 0, 1⟩ : NuggetRange)) ∈
      [("full", (⟨0, 0, 0, 1⟩ : NuggetRange))] ∧
    ∀ i, i < ([⟨60, 0, 1, 1⟩] : List NoteEvent).length →
      offset_to_seconds 0 [⟨0, none, 120⟩] ≤
        (([⟨60, 0, 1, 1⟩] : List NoteEvent).getD i defNote).startTime →
      (([⟨60, 0, 1, 1⟩] : List NoteEvent).getD i defNote).startTime <
        offset_to_seconds 1 [⟨0, none, 120⟩] →
      (⟨0, 0, 0, 1⟩ : NuggetRange).note_start_index ≤ i ∧
        i ≤ (⟨0, 0, 0, 1⟩ : NuggetRange).note_end_index :=
  resolve_full_track_time_window ⟨[⟨1, 0, some 1⟩], some 1⟩ [⟨0, none, 120⟩]
    ⟨1, 1, 1, 2⟩ [("full", [⟨60, 0, 1, 1⟩])] 0 1 [("full", ⟨0, 0, 0, 1⟩)]
    (by with_unfolding_all rfl) (by with_unfolding_all rfl)
    (by with_unfolding_all rfl) "full" [⟨60, 0, 1, 1⟩]
    (List.mem_cons_self _ _) ⟨0, 0, 0, 1⟩ (by with_unfolding_all rfl)

theorem resolveTracks_error_iff (st et : ℚ) (tracks : List (String × List NoteEvent)) :
    (∃ msg, resolveTracks st et tracks = .error msg) ↔
      ∃ notes, ("full", notes) ∈ tracks ∧ select_notes notes st et = none := by
  induction tracks with
  | nil =>
    simp [resolveTracks]
  | cons track rest ih =>
    rcases track with ⟨n0, ns0⟩
    cases hsel0 : select_notes ns0 st et with
    | none =>
      rw [resolveTracks_cons_none hsel0]
      by_cases hfull : n0 = "full"
      · rw [if_pos hfull]
        subst hfull
        constructor
        · intro _
          exact ⟨ns0, List.mem_cons_self _ _, hsel0⟩
        · intro _
          exact ⟨_, rfl⟩
      · rw [if_neg hfull]
        rw [ih]
        constructor
        · rintro ⟨notes, hmem, hsel⟩
          exact ⟨notes, List.mem_cons_of_mem _ hmem, hsel⟩
        · rintro ⟨notes, hmem, hsel⟩
          rcases List.mem_cons.mp hmem with heq | hmem'
          · injection heq with hn hns
            exact absurd hn.symm hfull
          · exact ⟨notes, hmem', hsel⟩
    | some r0 =>
      rw [resolveTracks_cons_some hsel0]
      cases hrest : resolveTracks st et rest with
      | error msg =>
        constructor
        · intro _
          rcases ih.mp ⟨msg, hrest⟩ with ⟨notes, hmem, hsel⟩
          exact ⟨notes, List.mem_cons_of_mem _ hmem, hsel⟩
        · intro _
          exact ⟨msg, rfl⟩
      | ok tail =>
        constructor
        · rintro ⟨msg, hmsg⟩
          cases hmsg
        · rintro ⟨notes, hmem, hsel⟩
          rcases List.mem_cons.mp hmem with heq | hmem'
          · injection heq with hn hns
            rw [← hns] at hsel0
            rw [hsel0] at hsel
            cases hsel
          · rcases ih.mpr ⟨notes, hmem', hsel⟩ with ⟨msg, hmsg⟩
            rw [hmsg] at hrest
            cases hrest

theorem resolveTracks_omits {st et : ℚ} {tracks : List (String × List NoteEvent)}
    {res : List (String × NuggetRange)}
    (h : resolveTracks st et tracks = .ok res) :
    ∀ name r, (name, r) ∈ res →
      ∃ notes, (name, notes) ∈ tracks ∧ select_notes notes st et = some r := by
  induction tracks generalizing res with
  | nil =>
    intro name r hmem
    have h' : ([] : List (String × NuggetRange)) = res := Except.ok.inj h
    rw [← h'] at hmem
    cases hmem
  | cons track rest ih =>
    rcases track with ⟨n0, ns0⟩
    intro name r hmem
    cases hsel0 : select_notes ns0 st et with
    | none =>
      rw [resolveTracks_cons_none hsel0] at h
      by_cases hfull : n0 = "full"
      · rw [if_pos hfull] at h
        cases h
      · rw [if_neg hfull] at h
        rcases ih h name r hmem with ⟨notes, hmem', hsel⟩
        exact ⟨notes, List.mem_cons_of_mem _ hmem', hsel⟩
    | some r0 =>
      rw [resolveTracks_cons_some hsel0] at h
      cases hrest : resolveTracks st et rest with
      | error msg =>
        rw [hrest] at h
        cases h
      | ok tail =>
        rw [hrest] at h
        have h' : ((n0, r0) :: tail) = res := Except.ok.inj h
        rw [← h'] at hmem
        rcases List.mem_cons.mp hmem with heq | hmem'
        · injection heq with hn hr
          refine ⟨ns0, ?_, ?_⟩
          · rw [hn]
            exact List.mem_cons_self _ _
          · rw [hr]
            exact hsel0
        · rcases ih hrest name r hmem' with ⟨notes, hmem'', hsel⟩
          exact ⟨notes, List.mem_cons_of_mem _ hmem'', hsel⟩

theorem nodup_key_unique {tracks : List (String × List NoteEvent)}
    (hnodup : (tracks.map Prod.fst).Nodup) :
    ∀ {name : String} {notes notes' : List NoteEvent},
      (name, notes) ∈ tracks → (name, notes') ∈ tracks → notes = notes' := by
  induction tracks with
  | nil =>
    intro name notes notes' h
    cases h
  | cons t rest ih =>
    rcases t with ⟨n0, ns0⟩
    intro name notes notes' h1 h2
    simp only [List.map_cons, List.nodup_cons] at hnodup
    rcases List.mem_cons.mp h1 with heq1 | h1'
    · rcases List.mem_cons.mp h2 with heq2 | h2'
      · injection heq1 with a1 b1
        injection heq2 with a2 b2
        rw [b1, b2]
      · injection heq1 with a1 b1
        exfalso
        apply hnodup.1
        rw [← a1]
        exact List.mem_map_of_mem Prod.fst h2'
    · rcases List.mem_cons.mp h2 with heq2 | h2'
      · injection heq2 with a2 b2
        exfalso
        apply hnodup.1
        rw [← a2]
        exact List.mem_map_of_mem Prod.fst h1'
      · exact ih hnodup.2 h1' h2'

/-- C3: nugget resolution fails exactly when a referenced measure is missing
or the full track selects zero notes; a secondary track selecting zero notes
is omitted from the result without an error. -/
theorem resolve_error_characterization (part : PartModel) (bs : List Boundary)
    (loc : Location) (tracks : List (String × List NoteEvent)) :
    ((∃ msg, resolveNugget part bs loc tracks = .error msg) ↔
      (∃ msg, measure_offset part loc.startMeasure loc.startBeat = .error msg) ∨
      (∃ msg, measure_offset part loc.endMeasure loc.endBeat = .error msg) ∨
      (∃ so eo notes,
        measure_offset part loc.startMeasure loc.startBeat = .ok so ∧
        measure_offset part loc.endMeasure loc.endBeat = .ok eo ∧
        ("full", notes) ∈ tracks ∧
        select_notes notes (offset_to_seconds so bs) (offset_to_seconds eo bs) = none)) ∧
    (∀ so eo res name notes,
      measure_offset part loc.startMeasure loc.startBeat = .ok so →
      measure_offset part loc.endMeasure loc.endBeat = .ok eo →
      resolveNugget part bs loc tracks = .ok res →
      (tracks.map Prod.fst).Nodup →
      (name, notes) ∈ tracks →
      select_notes notes (offset_to_seconds so bs) (offset_to_seconds eo bs) = none →
      ¬ ∃ r, (name, r) ∈ res) := by
  constructor
  · cases hmo1 : measure_offset part loc.startMeasure loc.startBeat with
    | error msg1 =>
      constructor
      · intro _
        exact Or.inl ⟨msg1, rfl⟩
      · intro _
        refine ⟨msg1, ?_⟩
        unfold resolveNugget
        rw [hmo1]
        rfl
    | ok so =>
      cases hmo2 : measure_offset part loc.endMeasure loc.endBeat with
      | error msg2 =>
        constructor
        · intro _
          exact Or.inr (Or.inl ⟨msg2, rfl⟩)
        · intro _
          refine ⟨msg2, ?_⟩
          unfold resolveNugget
          rw [hmo1, hmo2]
          rfl
      | ok eo =>
        have hred : ∀ out, (resolveNugget part bs loc tracks = out ↔
            resolveTracks (offset_to_seconds so bs) (offset_to_seconds eo bs) tracks
              = out) := by
          intro out
          unfold resolveNugget
          rw [hmo1, hmo2]
          rfl
        constructor
        · rintro ⟨msg, hmsg⟩
          rcases (resolveTracks_error_iff _ _ tracks).mp ⟨msg, (hred _).mp hmsg⟩ with
            ⟨notes, hmem, hsel⟩
          exact Or.inr (Or.inr ⟨so, eo, notes, rfl, rfl, hmem, hsel⟩)
        · rintro (⟨msg, hmsg⟩ | ⟨msg, hmsg⟩ | ⟨so', eo', notes, hso', heo', hmem, hsel⟩)
          · cases hmsg
          · cases hmsg
          · have hso'' := Except.ok.inj hso'
            have heo'' := Except.ok.inj heo'
            subst hso''
            subst heo''
            rcases (resolveTracks_error_iff _ _ tracks).mpr ⟨notes, hmem, hsel⟩ with
              ⟨msg, hmsg⟩
            exact ⟨msg, (hred _).mpr hmsg⟩
  · intro so eo res name notes h1 h2 hres hnodup hmem hsel
    rintro ⟨r, hr⟩
    rcases resolveTracks_omits (resolveNugget_tracks h1 h2 hres) name r hr with
      ⟨notes', hmem', hsel'⟩
    have heqn : notes' = notes := nodup_key_unique hnodup hmem' hmem
    rw [heqn] at hsel'
    rw [hsel] at hsel'
    cases hsel'

/-- C3 witness: concrete resolution where the secondary "rh" track matches
zero notes and is omitted from the result without an error. -/
theorem resolve_error_characterization_witness :
    ¬ ∃ r, ("rh", r) ∈ [("full", (⟨0, 0, 0, 1⟩ : NuggetRange))] :=
  (resolve_error_characterization ⟨[⟨1, 0, some 1⟩], some 1⟩ [⟨0, none, 120⟩]
    ⟨1, 1, 1, 2⟩ [("full", [⟨60, 0, 1, 1⟩]), ("rh", [⟨60, 5, 6, 1⟩])]).2
    0 1 [("full", ⟨0, 0, 0, 1⟩)] "rh" [⟨60, 5, 6, 1⟩]
    (by with_unfolding_all rfl) (by with_unfolding_all rfl)
    (by with_unfolding_all rfl) (by decide)
    (List.mem_cons_of_mem _ (List.mem_cons_self _ _))
    (by with_unfolding_all rfl)

/-! ## TempoMap round-trip (C6) -/

theorem strictAsc_lt_of_mem : ∀ (l : List (ℚ × ℚ)) (a : ℚ), StrictAsc a l →
    ∀ p ∈ l, a < p.1
  | [], _, _, p, hp => absurd hp (List.not_mem_nil p)
  | q :: rest, a, h, p, hp => by
    rcases h with ⟨h1, h2⟩
    rcases List.mem_cons.mp hp with rfl | hp'
    · exact h1
    · exact lt_trans h1 (strictAsc_lt_of_mem rest q.1 h2 p hp')

theorem strictAsc_pairwise : ∀ (l : List (ℚ × ℚ)) (a : ℚ), StrictAsc a l →
    l.Pairwise (fun p p' => fstLeB p p' = true)
  | [], _, _ => List.Pairwise.nil
  | q :: rest, a, h => by
    rcases h with ⟨_, h2⟩
    refine List.pairwise_cons.mpr ⟨?_, strictAsc_pairwise rest q.1 h2⟩
    intro p hp
    simp only [fstLeB, decide_eq_true_eq]
    exact le_of_lt (strictAsc_lt_of_mem rest q.1 h2 p hp)

theorem timesOf_length (l : List (ℚ × ℚ)) :
    ∀ cumQ curT curB, (timesOf cumQ curT curB l).length = l.length := by
  induction l with
  | nil => intro _ _ _; rfl
  | cons p rest ih =>
    rcases p with ⟨q, b⟩
    intro cumQ curT curB
    simp only [timesOf, List.length_cons, ih]

theorem midiTempoGo_timesOf : ∀ (l : List (ℚ × ℚ)) (cumQ curT curB : ℚ),
    curB ≠ 0 → (∀ p ∈ l, p.2 ≠ (0:ℚ)) →
    midiTempoGo cumQ curT curB (timesOf cumQ curT curB l) = l
  | [], _, _, _, _, _ => rfl
  | (q, b) :: rest, cumQ, curT, curB, hB, hall => by
    simp only [timesOf, midiTempoGo]
    have hcum : cumQ + (curT + (q - cumQ) * (60 / curB) - curT) / (60 / curB) = q := by
      have hx : (60:ℚ) / curB ≠ 0 := div_ne_zero (by norm_num) hB
      field_simp
      ring
    rw [hcum]
    refine congrArg _ (midiTempoGo_timesOf rest q _ b ?_ ?_)
    · exact hall (q, b) (List.mem_cons_self _ _)
    · intro p hp
      exact hall p (List.mem_cons_of_mem _ hp)

theorem timesOf_getD : ∀ (l : List (ℚ × ℚ)) (cumQ curT curB : ℚ) (i : Nat),
    StrictAsc cumQ l → i < l.length →
    (timesOf cumQ curT curB l).getD i (0, 0) =
      (curT + secondsWalk ((l.getD i (0, 0)).1) cumQ curB l, (l.getD i (0, 0)).2)
  | [], _, _, _, i, _, hi => absurd hi (by simp)
  | (q1, b1) :: rest, cumQ, curT, curB, 0, hasc, _ => by
    simp only [timesOf, List.getD_cons_zero, secondsWalk]
    rw [if_pos le_rfl]
  | (q1, b1) :: rest, cumQ, curT, curB, i + 1, hasc, hi => by
    rcases hasc with ⟨h1, h2⟩
    have hi' : i < rest.length := by simpa using hi
    have hmem : rest.getD i (0, 0) ∈ rest := by
      rw [List.getD_eq_getElem _ _ hi']
      exact List.getElem_mem hi'
    have hgt : q1 < (rest.getD i (0, 0)).1 :=
      strictAsc_lt_of_mem rest q1 h2 _ hmem
    simp only [timesOf, List.getD_cons_succ]
    rw [timesOf_getD rest q1 (curT + (q1 - cumQ) * (60 / curB)) b1 i h2 hi']
    simp only [secondsWalk]
    rw [if_neg (not_le.mpr hgt)]
    simp only [Prod.mk.injEq]
    exact ⟨by ring, trivial⟩

theorem secondsWalk_at_start (l : List (ℚ × ℚ)) (a pb : ℚ) (h : StrictAsc a l) :
    secondsWalk a a pb l = 0 := by
  cases l with
  | nil => simp [secondsWalk]
  | cons p rest =>
    rcases p with ⟨q, b⟩
    simp only [secondsWalk]
    rw [if_pos (le_of_lt h.1)]
    simp

theorem seconds_from_offset_sorted (b0 : ℚ) (rest : List (ℚ × ℚ))
    (hasc : StrictAsc 0 rest) (x : ℚ) :
    seconds_from_offset x ((0, b0) :: rest) = secondsWalk x 0 b0 rest := by
  unfold seconds_from_offset
  rw [sortLe_eq_self fstLeB ((0, b0) :: rest) ?_]
  · refine List.pairwise_cons.mpr ⟨?_, strictAsc_pairwise rest 0 hasc⟩
    intro p hp
    simp only [fstLeB, decide_eq_true_eq]
    exact le_of_lt (strictAsc_lt_of_mem rest 0 hasc p hp)

theorem tempoTable_eq (b0 : ℚ) (rest : List (ℚ × ℚ))
    (hasc : StrictAsc 0 rest) :
    tempoTable ((0, b0) :: rest) = (0, b0) :: timesOf 0 0 b0 rest := by
  unfold tempoTable
  rw [List.map_cons]
  refine congrArg₂ _ ?_ ?_
  · rw [seconds_from_offset_sorted b0 rest hasc 0, secondsWalk_at_start rest 0 b0 hasc]
  · refine List.ext_getElem (by rw [List.length_map, timesOf_length]) ?_
    intro i h1 h2
    rw [List.getElem_map]
    have hi : i < rest.length := by simpa using h1
    have hD := timesOf_getD rest 0 0 b0 i hasc hi
    rw [List.getD_eq_getElem _ _ h2] at hD
    rw [hD, List.getD_eq_getElem _ _ hi]
    rw [seconds_from_offset_sorted b0 rest hasc]
    rw [zero_add]

/-- C6: a symbolic tempo schedule and the `midi_tempo_map` conversion of the
equivalent absolute-time tempo table reduce to the same segment sequence, so
`_seconds_from_offset` agrees (exactly, hence within 1e-6s) at every query
offset, and converting each table entry's quarter offset back to seconds
recovers that entry's original absolute change time. -/
theorem tempo_roundtrip (b0 : ℚ) (rest : List (ℚ × ℚ))
    (hb0 : 0 < b0) (hpos : ∀ p ∈ rest, 0 < p.2) (hasc : StrictAsc 0 rest) :
    midi_tempo_map (tempoTable ((0, b0) :: rest)) = (0, b0) :: rest ∧
    (∀ x : ℚ, |seconds_from_offset x (midi_tempo_map (tempoTable ((0, b0) :: rest))) -
      seconds_from_offset x ((0, b0) :: rest)| ≤ 1/1000000) ∧
    (∀ i, i < (tempoTable ((0, b0) :: rest)).length →
      seconds_from_offset ((midi_tempo_map (tempoTable ((0, b0) :: rest))).getD i (0, 0)).1
          (midi_tempo_map (tempoTable ((0, b0) :: rest))) =
        ((tempoTable ((0, b0) :: rest)).getD i (0, 0)).1) := by
  have hmap : midi_tempo_map (tempoTable ((0, b0) :: rest)) = (0, b0) :: rest := by
    rw [tempoTable_eq b0 rest hasc]
    unfold midi_tempo_map
    refine congrArg _ (midiTempoGo_timesOf rest 0 0 b0 (ne_of_gt hb0) ?_)
    intro p hp
    exact ne_of_gt (hpos p hp)
  refine ⟨hmap, ?_, ?_⟩
  · intro x
    rw [hmap, sub_self, abs_zero]
    norm_num
  · intro i hi
    simp only [tempoTable, List.length_map] at hi
    rw [hmap, List.getD_eq_getElem _ _ hi]
    simp only [tempoTable]
    rw [List.getD_eq_getElem _ _ (by rw [List.length_map]; exact hi), List.getElem_map]

/-- C6 witness: a two-segment schedule (120 bpm then 60 bpm at offset 4). -/
theorem tempo_roundtrip_witness :
    midi_tempo_map (tempoTable [(0, 120), (4, 60)]) = [(0, 120), (4, 60)] ∧
    |seconds_from_offset 6 (midi_tempo_map (tempoTable [(0, 120), (4, 60)])) -
      seconds_from_offset 6 [(0, 120), (4, 60)]| ≤ 1/1000000 ∧
    seconds_from_offset ((midi_tempo_map (tempoTable [(0, 120), (4, 60)])).getD 1 (0, 0)).1
        (midi_tempo_map (tempoTable [(0, 120), (4, 60)])) =
      ((tempoTable [(0, 120), (4, 60)]).getD 1 (0, 0)).1 :=
  ⟨(tempo_roundtrip 120 [(4, 60)] (by norm_num) (by with_unfolding_all decide)
      (by with_unfolding_all decide)).1,
    (tempo_roundtrip 120 [(4, 60)] (by norm_num) (by with_unfolding_all decide)
      (by with_unfolding_all decide)).2.1 6,
    (tempo_roundtrip 120 [(4, 60)] (by norm_num) (by with_unfolding_all decide)
      (by with_unfolding_all decide)).2.2 1 (by with_unfolding_all decide)⟩

end Replay
